import Mathlib

/-!
# Verification of the `fasta` crate (src/lib.rs)

A shallow embedding of the FASTA parsing library.  Strings are modelled as
`List Char` (Rust `&str` viewed as a sequence of `char`s), a line source as a
`List LineRes` (each item is either a successfully read line, newline already
stripped, or an I/O error carrying its kind).  The embedded functions mirror
the Rust source:

* `isWs`      — `char::is_whitespace` (the Unicode White_Space set);
* `trim`      — `str::trim`;
* `Record.setHeader`   — `Record::set_header` (lib.rs lines 27-35);
* `Record.setHeaderChecked` — the same function with the possibly-panicking
  byte slice `s[1..]` made explicit as an `Option`;
* `Record.render`      — `impl fmt::Display for Record` (lib.rs lines 38-48);
* `batchGo` / `batchRecords` / `fastaParse` — `Fasta::parse` (lines 85-113),
  whose `filter_map(Result::ok)` silently drops read errors;
* `bufNext`   — `FastaBuffer::next` (lines 239-273); the returned list is the
  state of the peekable line source after the call (peeking does not consume);
* `streamGo` / `streamAll` — repeatedly pulling records from `FastaBuffer`
  until exhaustion (fuel-based iteration of `bufNext`; `ls.length + 1` pulls
  always suffice because every successful pull consumes at least one line);
* `drain`     — the same record stream as one structural recursion, proved
  equal to `streamAll` in `streamAll_eq_drain`;
* `splitLines` — `BufRead::lines` line splitting (split at `'\n'`, a final
  `'\r'` is stripped only from `'\n'`-terminated lines).

Definitions marked `Modelled from the spec` transcribe the specification's
words (not the source) and exist only to compare the source against them.
-/

namespace FastaLib

/-- Rust `char::is_whitespace`: the Unicode White_Space code points. -/
def isWs (c : Char) : Bool :=
  let v := c.toNat
  (0x09 ≤ v && v ≤ 0x0D) || v == 0x20 || v == 0x85 || v == 0xA0 ||
    v == 0x1680 || (0x2000 ≤ v && v ≤ 0x200A) || v == 0x2028 || v == 0x2029 ||
    v == 0x202F || v == 0x205F || v == 0x3000

/-- Remove leading whitespace (half of Rust `str::trim`). -/
def trimLeft (l : List Char) : List Char := l.dropWhile isWs

/-- Remove trailing whitespace (half of Rust `str::trim`). -/
def trimRight (l : List Char) : List Char := (l.reverse.dropWhile isWs).reverse

/-- Rust `str::trim`: remove leading and trailing whitespace. -/
def trim (l : List Char) : List Char := trimRight (trimLeft l)

/-- The characters of a string literal, for readable concrete inputs. -/
def chars (s : String) : List Char := s.data

/-- `fasta::Record` (lib.rs lines 13-17). -/
structure Record where
  id : List Char
  description : List Char
  sequence : List Char
deriving Repr, DecidableEq

/-- `Record::new()`: all fields default to the empty string. -/
def Record.new : Record := ⟨[], [], []⟩

/-- Rust `s.splitn(2, char::is_whitespace)` consumed by two `next()` calls:
the part before the first whitespace character, and, when such a character
exists, everything after that single character. -/
def splitFirstWs : List Char → List Char × Option (List Char)
  | [] => ([], none)
  | c :: rest =>
    if isWs c then ([], some rest)
    else
      let p := splitFirstWs rest
      (c :: p.1, p.2)

/-- `Record::set_header` (lib.rs lines 27-35): if the line starts with `'>'`
drop that byte, then split at the first whitespace character into
`id` and `description` (`unwrap_or("")` supplies empty defaults). -/
def Record.setHeader (r : Record) (s : List Char) : Record :=
  let body := if s.head? = some '>' then s.tail else s
  let p := splitFirstWs body
  { r with id := p.1, description := p.2.getD [] }

/-- Rust byte slice `&s[1..]` as a fallible operation: it panics (here:
`none`) when the string is empty or byte 1 is not a character boundary. -/
def byteTail : List Char → Option (List Char)
  | [] => none
  | c :: rest => if c.utf8Size = 1 then some rest else none

/-- `Record::set_header` with the panicking byte slice `s[1..]` explicit:
`none` would mean the Rust code panics. -/
def Record.setHeaderChecked (r : Record) (s : List Char) : Option Record :=
  match (if s.head? = some '>' then byteTail s else some s) with
  | none => none
  | some body =>
    let p := splitFirstWs body
    some { r with id := p.1, description := p.2.getD [] }

/-- Rust `self.sequence.get(0..40)` generalised to any byte count: `some`
exactly when the string has at least `n` bytes and byte `n` is a character
boundary, in which case it returns the first `n` bytes. -/
def takeBytes : Nat → List Char → Option (List Char)
  | 0, _ => some []
  | _ + 1, [] => none
  | n + 1, c :: rest =>
    if c.utf8Size ≤ n + 1 then (takeBytes (n + 1 - c.utf8Size) rest).map (c :: ·)
    else none

/-- `impl fmt::Display for Record` (lib.rs lines 38-48): the format string is
`">{} {}\n{}..."` where the third argument is
`self.sequence.get(0..40).unwrap_or(&self.sequence)`. -/
def Record.render (r : Record) : List Char :=
  '>' :: (r.id ++ ' ' :: (r.description ++ '\n' ::
    ((takeBytes 40 r.sequence).getD r.sequence ++ chars "...")))

/-- One item of a line source: `BufRead::lines` yields
`Result<String, io::Error>`; an error is modelled by its kind. -/
inductive LineRes where
  | ok (line : List Char)
  | err (kind : Nat)
deriving Repr, DecidableEq

/-- `fasta::errors::FastaError` (errors.rs): a unit error type. -/
inductive FastaError where
  | mk
deriving Repr, DecidableEq

/-- The loop of `Fasta::parse` (lib.rs lines 90-111), with the loop state
(`current_rec`, `active_record`) explicit.  `filter_map(Result::ok)` drops
read errors; classification looks at `line.trim().chars().next()` but the
header and sequence pushes use the raw `line`. -/
def batchGo : List LineRes → Bool → Record → List Record
  | [], active, rec => if active then [rec] else []
  | LineRes.err _ :: rest, active, rec => batchGo rest active rec
  | LineRes.ok line :: rest, active, rec =>
    match (trim line).head? with
    | none => batchGo rest active rec
    | some c =>
      if c = ';' then batchGo rest active rec
      else if c = '>' then
        let started := Record.setHeader Record.new line
        if active then rec :: batchGo rest true started
        else batchGo rest true started
      else if active then
        batchGo rest active { rec with sequence := rec.sequence ++ line }
      else batchGo rest active rec

/-- The record list produced by `Fasta::parse`. -/
def batchRecords (ls : List LineRes) : List Record := batchGo ls false Record.new

/-- `Fasta::parse` (lib.rs lines 85-113): always returns `Ok`. -/
def fastaParse (ls : List LineRes) : Except FastaError (List Record) :=
  Except.ok (batchRecords ls)

/-- `FastaBuffer::next` (lib.rs lines 239-273).  The first component is the
returned `Option<Result<Record, io::Error>>`; the second is the peekable line
source after the call (`peekline` does not consume, `advanceline` does; on an
error or on a header seen while a record is active the line is not consumed). -/
def bufNext : List LineRes → Bool → Record → Option (Except Nat Record) × List LineRes
  | [], active, rec => (if active then some (Except.ok rec) else none, [])
  | LineRes.err k :: rest, _, _ => (some (Except.error k), LineRes.err k :: rest)
  | LineRes.ok line :: rest, active, rec =>
    let t := trim line
    match t.head? with
    | none => bufNext rest active rec
    | some c =>
      if c = ';' then bufNext rest active rec
      else if c = '>' then
        if active then (some (Except.ok rec), LineRes.ok line :: rest)
        else bufNext rest true (Record.setHeader rec t)
      else if active then
        bufNext rest active { rec with sequence := rec.sequence ++ t }
      else bufNext rest active rec

/-- `n` successive pulls on a `FastaBuffer`: the records obtained by calling
`bufNext` (each call starting, as the iterator does, with `active_record =
false` and a fresh record) until a pull yields `None` (exhaustion), an error,
or the fuel runs out. -/
def streamGo : Nat → List LineRes → List Record
  | 0, _ => []
  | n + 1, ls =>
    match bufNext ls false Record.new with
    | (none, _) => []
    | (some (Except.error _), _) => []
    | (some (Except.ok r), rest) => r :: streamGo n rest

/-- All records obtained by repeatedly pulling from a `FastaBuffer` until
exhaustion.  `ls.length + 1` pulls always suffice because every pull that
yields a record consumes at least one line (`streamAll_eq_drain` below). -/
def streamAll (ls : List LineRes) : List Record := streamGo (ls.length + 1) ls

/-- The record stream of repeated `bufNext` pulls fused into one structural
recursion (a header seen while a record is active first emits the record and
the very next pull re-reads that header with a fresh record).  Proved equal
to `streamAll` in `streamAll_eq_drain`. -/
def drain : List LineRes → Bool → Record → List Record
  | [], active, rec => if active then [rec] else []
  | LineRes.err _ :: _, _, _ => []
  | LineRes.ok line :: rest, active, rec =>
    let t := trim line
    match t.head? with
    | none => drain rest active rec
    | some c =>
      if c = ';' then drain rest active rec
      else if c = '>' then
        if active then rec :: drain rest true (Record.setHeader Record.new t)
        else drain rest true (Record.setHeader rec t)
      else if active then
        drain rest active { rec with sequence := rec.sequence ++ t }
      else drain rest active rec

/-- The result of the `n`-th pull (0-based) on a `FastaBuffer` whose line
source is `ls`: each pull advances the source to the state `bufNext` leaves. -/
def nthPull : Nat → List LineRes → Option (Except Nat Record)
  | 0, ls => (bufNext ls false Record.new).1
  | n + 1, ls => nthPull n (bufNext ls false Record.new).2

/-- Running the `FastaBuffer::next` loop over a whole list of lines without
returning: `some (active, rec)` is the loop state after consuming all of
them; `none` means the loop would have returned (a record, or an error)
somewhere inside the list. -/
def scanState : List LineRes → Bool → Record → Option (Bool × Record)
  | [], a, r => some (a, r)
  | LineRes.err _ :: _, _, _ => none
  | LineRes.ok line :: rest, a, r =>
    let t := trim line
    match t.head? with
    | none => scanState rest a r
    | some c =>
      if c = ';' then scanState rest a r
      else if c = '>' then
        if a then none else scanState rest true (Record.setHeader r t)
      else if a then
        scanState rest a { r with sequence := r.sequence ++ t }
      else scanState rest a r

/-- Strip one trailing `'\r'` (the CRLF handling of `BufRead::lines`). -/
def stripCR (l : List Char) : List Char :=
  if l.getLast? = some '\r' then l.dropLast else l

/-- Worker for `splitLines`: `acc` is the current line read so far, reversed.
At a `'\n'` the line is emitted (after CR stripping); a `'\n'` that ends the
input emits the line and stops, producing no empty final line. -/
def splitLinesGo : List Char → List Char → List (List Char)
  | [], acc => [acc.reverse]
  | c :: rest, acc =>
    if c = '\n' then
      match rest with
      | [] => [stripCR acc.reverse]
      | _ :: _ => stripCR acc.reverse :: splitLinesGo rest []
    else splitLinesGo rest (c :: acc)

/-- `BufRead::lines` applied to a whole in-memory string: split at `'\n'`;
a line that was terminated by `'\n'` additionally loses one trailing `'\r'`;
a final unterminated line is kept as is; a trailing `'\n'` produces no empty
final line; the empty input has no lines. -/
def splitLines : List Char → List (List Char)
  | [] => []
  | c :: rest => splitLinesGo (c :: rest) []

/-- A line is a header or sequence line of the spec's bit-exact grammar
(§6): non-empty and not a comment line. -/
def headerOrSeqLine (l : List Char) : Bool :=
  match l.head? with
  | none => false
  | some c => !(c == ';')

/-- Well-formed input per the spec's bit-exact grammar (§6): among the
non-comment non-blank lines, the first one (if any) must be a header, so
every sequence line belongs to some record. -/
def grammarWF (ls : List (List Char)) : Bool :=
  match ls.find? headerOrSeqLine with
  | none => true
  | some l => l.head? == some '>'

/-- A successfully read line that carries no leading or trailing whitespace. -/
def okTrimmed : LineRes → Bool
  | LineRes.ok l => trim l == l
  | LineRes.err _ => false

/-- A successfully read line containing no newline character (what an actual
line splitter always yields). -/
def okNoNL : LineRes → Bool
  | LineRes.ok l => !(l.contains '\n')
  | LineRes.err _ => false

/-- A comment or blank line: first non-whitespace character is `';'`, or
none exists. -/
def skippableLine (l : List Char) : Bool :=
  ((trim l).head? == none) || ((trim l).head? == some ';')

/-- A line-source item that is not a comment or blank line. -/
def notSkippable (x : LineRes) : Bool :=
  match x with
  | LineRes.ok l => !(skippableLine l)
  | LineRes.err _ => true

/-- A successfully read line whose first non-whitespace character is not the
header marker. -/
def okNotHeader : LineRes → Bool
  | LineRes.ok l => !((trim l).head? == some '>')
  | LineRes.err _ => false

/-- Worker for `wrapChunks`; the fuel argument only forces termination and
never runs out when it starts at the string length (each step removes 80
characters). -/
def wrapChunksGo : Nat → List Char → List Char
  | 0, s => s
  | fuel + 1, s =>
    if s.length < 80 then s
    else s.take 80 ++ '\n' :: wrapChunksGo fuel (s.drop 80)

/-- Modelled from the spec (§4.5): the sequence split into consecutive
80-character chunks, each terminated by a newline, the final (possibly
shorter, possibly empty) remainder appended without one. -/
def wrapChunks (s : List Char) : List Char :=
  wrapChunksGo s.length s

/-- Modelled from the spec (§4.5): render a record as
`>{id} {description}\n{wrapped-sequence}\n`. -/
def Record.renderSpec (r : Record) : List Char :=
  '>' :: (r.id ++ ' ' :: (r.description ++ '\n' :: (wrapChunks r.sequence ++ ['\n'])))

/-- Modelled from the spec (§4.2, claim C5): strip the marker if present,
then split on the first whitespace run — `id` is the text before the run,
`description` everything after the whole run. -/
def headerSplitSpec (s : List Char) : List Char × List Char :=
  let body := if s.head? = some '>' then s.tail else s
  (body.takeWhile (fun c => !(isWs c)),
   (body.dropWhile (fun c => !(isWs c))).dropWhile isWs)

/-- Claim C4's shape of a `sequence` field: an in-order concatenation of
pieces (one per contributing sequence line) none of which carries leading or
trailing whitespace or a newline. -/
def SeqPieces (r : Record) : Prop :=
  ∃ ps : List (List Char), r.sequence = ps.flatten ∧
    ∀ p ∈ ps, trim p = p ∧ '\n' ∉ p

/-! ## Generic facts about `trim` -/

theorem dropWhile_head_false (p : Char → Bool) :
    ∀ (l : List Char) (c : Char) (t : List Char),
      List.dropWhile p l = c :: t → p c = false := by
  intro l
  induction l with
  | nil => intro c t h; simp at h
  | cons a l ih =>
    intro c t h
    by_cases ha : p a
    · rw [List.dropWhile_cons_of_pos ha] at h
      exact ih c t h
    · rw [List.dropWhile_cons_of_neg ha] at h
      cases h
      simpa using ha

theorem dropWhile_idem (p : Char → Bool) (l : List Char) :
    (l.dropWhile p).dropWhile p = l.dropWhile p := by
  cases h : l.dropWhile p with
  | nil => simp
  | cons c t =>
    have hc := dropWhile_head_false p l c t h
    rw [List.dropWhile_cons_of_neg (by simp [hc])]

theorem trimLeft_cons_of_not {c : Char} (h : isWs c = false) (l : List Char) :
    trimLeft (c :: l) = c :: l := by
  have hc : ¬ isWs c = true := by simp [h]
  simp only [trimLeft]
  rw [List.dropWhile_cons_of_neg hc]

theorem dropWhile_concat_ex (p : Char → Bool) {c : Char} (hc : p c = false) :
    ∀ xs : List Char, ∃ ys, (xs ++ [c]).dropWhile p = ys ++ [c] := by
  have hc' : ¬ p c = true := by simp [hc]
  intro xs
  induction xs with
  | nil =>
    refine ⟨[], ?_⟩
    simp only [List.nil_append]
    rw [List.dropWhile_cons_of_neg hc']
  | cons a xs ih =>
    by_cases ha : p a
    · obtain ⟨ys, hy⟩ := ih
      refine ⟨ys, ?_⟩
      simp only [List.cons_append]
      rw [List.dropWhile_cons_of_pos ha]
      exact hy
    · refine ⟨a :: xs, ?_⟩
      simp only [List.cons_append]
      rw [List.dropWhile_cons_of_neg ha]

theorem trimRight_cons_ex {c : Char} (h : isWs c = false) (l : List Char) :
    ∃ t, trimRight (c :: l) = c :: t := by
  obtain ⟨ys, hy⟩ := dropWhile_concat_ex isWs h l.reverse
  refine ⟨ys.reverse, ?_⟩
  simp only [trimRight, List.reverse_cons, hy, List.reverse_append]
  simp

theorem trim_cons_ex {c : Char} (h : isWs c = false) (l : List Char) :
    ∃ t, trim (c :: l) = c :: t := by
  unfold trim
  rw [trimLeft_cons_of_not h]
  exact trimRight_cons_ex h l

theorem trim_head?_cons {c : Char} (h : isWs c = false) (l : List Char) :
    (trim (c :: l)).head? = some c := by
  obtain ⟨t, ht⟩ := trim_cons_ex h l
  simp [ht]

theorem trimRight_idem (l : List Char) : trimRight (trimRight l) = trimRight l := by
  simp [trimRight, dropWhile_idem]

theorem trimLeft_of_trimLeft_fix {l : List Char} :
    trimLeft (trimRight (trimLeft l)) = trimRight (trimLeft l) := by
  cases h : trimLeft l with
  | nil => simp [trimRight, trimLeft, trim]
  | cons c t =>
    have hc : isWs c = false := dropWhile_head_false isWs l c t h
    obtain ⟨t', ht'⟩ := trimRight_cons_ex hc t
    rw [ht', trimLeft_cons_of_not hc]

theorem trim_idem (l : List Char) : trim (trim l) = trim l := by
  unfold trim
  rw [trimLeft_of_trimLeft_fix, trimRight_idem]

theorem trimLeft_length_le (l : List Char) : (trimLeft l).length ≤ l.length :=
  (List.dropWhile_sublist (l := l) isWs).length_le

theorem trimRight_length_le (l : List Char) : (trimRight l).length ≤ l.length := by
  simpa [trimRight] using (List.dropWhile_sublist (l := l.reverse) isWs).length_le

theorem trimLeft_eq_of_trim_fix {l : List Char} (h : trim l = l) : trimLeft l = l := by
  have h1 : (trim l).length ≤ (trimLeft l).length := trimRight_length_le (trimLeft l)
  have h2 : (trimLeft l).length ≤ l.length := trimLeft_length_le l
  have h3 : (trimLeft l).length = l.length := by rw [h] at h1; omega
  exact (List.dropWhile_sublist (l := l) isWs).eq_of_length h3

theorem trimRight_eq_of_trim_fix {l : List Char} (h : trim l = l) : trimRight l = l := by
  have h1 := trimLeft_eq_of_trim_fix h
  calc trimRight l = trimRight (trimLeft l) := by rw [h1]
    _ = l := h

theorem trim_fix_iff {l : List Char} : trim l = l ↔ trimLeft l = l ∧ trimRight l = l := by
  constructor
  · exact fun h => ⟨trimLeft_eq_of_trim_fix h, trimRight_eq_of_trim_fix h⟩
  · rintro ⟨h1, h2⟩
    unfold trim
    rw [h1, h2]

theorem trimLeft_fix_head {c : Char} {t : List Char} (h : trimLeft (c :: t) = c :: t) :
    isWs c = false := by
  by_cases hc : isWs c
  · exfalso
    simp only [trimLeft, List.dropWhile_cons_of_pos hc] at h
    have hl := (List.dropWhile_sublist (l := t) isWs).length_le
    rw [h] at hl
    simp at hl
  · simpa using hc

theorem trimLeft_append_fix {a b : List Char} (ha : trimLeft a = a)
    (hb : trimLeft b = b) : trimLeft (a ++ b) = a ++ b := by
  cases a with
  | nil => simpa using hb
  | cons c t =>
    have hc := trimLeft_fix_head ha
    simpa using trimLeft_cons_of_not hc (t ++ b)

theorem trimRight_fix_reverse {l : List Char} :
    trimRight l = l ↔ trimLeft l.reverse = l.reverse := by
  constructor
  · intro h
    have h2 := congrArg List.reverse h
    simp only [trimRight, List.reverse_reverse] at h2
    exact h2
  · intro h
    show (List.dropWhile isWs l.reverse).reverse = l
    rw [show List.dropWhile isWs l.reverse = trimLeft l.reverse from rfl, h,
      List.reverse_reverse]

theorem trimRight_append_fix {a b : List Char} (ha : trimRight a = a)
    (hb : trimRight b = b) : trimRight (a ++ b) = a ++ b := by
  rw [trimRight_fix_reverse] at ha hb ⊢
  rw [List.reverse_append]
  exact trimLeft_append_fix hb ha

theorem trim_append_fix {a b : List Char} (ha : trim a = a) (hb : trim b = b) :
    trim (a ++ b) = a ++ b := by
  rw [trim_fix_iff] at ha hb ⊢
  exact ⟨trimLeft_append_fix ha.1 hb.1, trimRight_append_fix ha.2 hb.2⟩

theorem mem_trim {c : Char} {l : List Char} (h : c ∈ trim l) : c ∈ l := by
  simp only [trim, trimRight, trimLeft] at h
  rw [List.mem_reverse] at h
  have h2 := (List.dropWhile_sublist (l := (l.dropWhile isWs).reverse) isWs).subset h
  rw [List.mem_reverse] at h2
  exact (List.dropWhile_sublist (l := l) isWs).subset h2

theorem trim_ne_nil_of_mem {c : Char} {l : List Char} (hc : isWs c = false)
    (hm : c ∈ l) : trim l ≠ [] := by
  intro h
  have hall : ∀ x ∈ l, isWs x = true := by
    have hL : ∀ x ∈ trimLeft l, isWs x = true := by
      have : trimRight (trimLeft l) = [] := h
      have hrev : (trimLeft l).reverse.dropWhile isWs = [] := by
        simpa [trimRight, List.reverse_eq_nil_iff] using this
      intro x hx
      exact List.dropWhile_eq_nil_iff.mp hrev x (List.mem_reverse.mpr hx)
    intro x hx
    have := List.takeWhile_append_dropWhile (p := isWs) (l := l)
    rw [← this] at hx
    rcases List.mem_append.mp hx with h1 | h1
    · exact List.mem_takeWhile_imp h1
    · exact hL x h1
  rw [hall c hm] at hc
  simp at hc

theorem flatten_trim_fix (ps : List (List Char))
    (h : ∀ p ∈ ps, trim p = p ∧ '\n' ∉ p) :
    trim ps.flatten = ps.flatten ∧ '\n' ∉ ps.flatten := by
  induction ps with
  | nil => simp [trim, trimLeft, trimRight]
  | cons p ps ih =>
    have hp := h p (by simp)
    have hrest := ih (fun q hq => h q (by simp [hq]))
    refine ⟨?_, ?_⟩
    · simpa using trim_append_fix hp.1 hrest.1
    · simp only [List.flatten_cons, List.mem_append]
      rintro (h1 | h1)
      · exact hp.2 h1
      · exact hrest.2 h1

/-! ## The stream of pulls and its fused form -/

theorem bufNext_suffix : ∀ (ls : List LineRes) (a : Bool) (r : Record),
    (bufNext ls a r).2 <:+ ls := by
  intro ls
  induction ls with
  | nil => intro a r; cases a <;> simp [bufNext]
  | cons x rest ih =>
    intro a r
    have hstep : ∀ (b : Bool) (q : Record), (bufNext rest b q).2 <:+ x :: rest :=
      fun b q => (ih b q).trans (List.suffix_cons x rest)
    cases x with
    | err k => simp [bufNext]
    | ok line =>
      cases hh : (trim line).head? with
      | none => simpa [bufNext, hh] using hstep a r
      | some c =>
        by_cases hc1 : c = ';'
        · simpa [bufNext, hh, hc1] using hstep a r
        · by_cases hc2 : c = '>'
          · cases a
            · simpa [bufNext, hh, hc1, hc2] using
                hstep true (Record.setHeader r (trim line))
            · simp [bufNext, hh, hc1, hc2]
          · cases a
            · simpa [bufNext, hh, hc1, hc2] using hstep false r
            · simpa [bufNext, hh, hc1, hc2] using
                hstep true { r with sequence := r.sequence ++ trim line }

theorem bufNext_ok_length {ls ls' : List LineRes} {r rec : Record}
    (h : bufNext ls false r = (some (Except.ok rec), ls')) :
    ls'.length < ls.length := by
  cases ls with
  | nil => simp [bufNext] at h
  | cons x rest =>
    have step : ∀ (b : Bool) (q : Record),
        bufNext (x :: rest) false r = bufNext rest b q →
        ls'.length < (x :: rest).length := by
      intro b q hq
      rw [hq] at h
      have hsuf := bufNext_suffix rest b q
      rw [h] at hsuf
      have hle : ls'.length ≤ rest.length := by simpa using hsuf.length_le
      simp only [List.length_cons]
      omega
    cases x with
    | err k => simp [bufNext] at h
    | ok line =>
      cases hh : (trim line).head? with
      | none => exact step false r (by simp [bufNext, hh])
      | some c =>
        by_cases hc1 : c = ';'
        · exact step false r (by simp [bufNext, hh, hc1])
        · by_cases hc2 : c = '>'
          · exact step true (Record.setHeader r (trim line))
              (by simp [bufNext, hh, hc1, hc2])
          · exact step false r (by simp [bufNext, hh, hc1, hc2])

theorem drain_bufNext : ∀ (ls : List LineRes) (a : Bool) (r : Record),
    drain ls a r = match bufNext ls a r with
      | (none, _) => []
      | (some (Except.error _), _) => []
      | (some (Except.ok rec), ls') => rec :: drain ls' false Record.new := by
  intro ls
  induction ls with
  | nil =>
    intro a r
    cases a <;> simp [drain, bufNext]
  | cons x rest ih =>
    intro a r
    cases x with
    | err k => simp [drain, bufNext]
    | ok line =>
      cases hh : (trim line).head? with
      | none => simp [drain, bufNext, hh, ih]
      | some c =>
        by_cases hc1 : c = ';'
        · simp [drain, bufNext, hh, hc1, ih]
        · by_cases hc2 : c = '>'
          · subst hc2
            cases a <;> simp [drain, bufNext, hh, hc1, ih]
          · cases a <;> simp [drain, bufNext, hh, hc1, hc2, ih]

theorem streamGo_eq_drain : ∀ (n : Nat) (ls : List LineRes), ls.length < n →
    streamGo n ls = drain ls false Record.new := by
  intro n
  induction n with
  | zero => intro ls h; omega
  | succ n ih =>
    intro ls h
    rw [drain_bufNext ls false Record.new]
    simp only [streamGo]
    cases hb : bufNext ls false Record.new with
    | mk res ls' =>
      cases res with
      | none => simp
      | some e =>
        cases e with
        | error k => simp
        | ok rec =>
          have hlen := bufNext_ok_length hb
          simp only [List.cons.injEq, true_and]
          exact ih ls' (by omega)

/-- Repeatedly pulling from `FastaBuffer` until exhaustion is the fused
stream `drain` started idle with a fresh record. -/
theorem streamAll_eq_drain (ls : List LineRes) :
    streamAll ls = drain ls false Record.new :=
  streamGo_eq_drain (ls.length + 1) ls (by omega)

/-! ## Batch versus streaming -/

theorem setHeader_sequence (r : Record) (s : List Char) :
    (Record.setHeader r s).sequence = r.sequence := rfl

theorem setHeader_eq_new {r : Record} (h : r.sequence = []) (s : List Char) :
    Record.setHeader r s = Record.setHeader Record.new s := by
  cases r with
  | mk i d sq =>
    simp only [Record.setHeader, Record.new]
    simp at h
    simp [h]

theorem okTrimmed_ok {l : List Char} :
    okTrimmed (LineRes.ok l) = true ↔ trim l = l := by
  simp [okTrimmed]

theorem batchGo_eq_drain : ∀ (ls : List LineRes) (a : Bool) (r : Record),
    (∀ x ∈ ls, okTrimmed x = true) → (a = false → r.sequence = []) →
    batchGo ls a r = drain ls a r := by
  intro ls
  induction ls with
  | nil => intro a r _ _; cases a <;> simp [batchGo, drain]
  | cons x rest ih =>
    intro a r hok hseq
    cases x with
    | err k =>
      have := hok (LineRes.err k) (by simp)
      simp [okTrimmed] at this
    | ok line =>
      have htf : trim line = line := by
        have := hok (LineRes.ok line) (by simp)
        simpa [okTrimmed] using this
      have hrest : ∀ x ∈ rest, okTrimmed x = true := fun x hx => hok x (by simp [hx])
      cases hh : (trim line).head? with
      | none =>
        have hL : batchGo (LineRes.ok line :: rest) a r = batchGo rest a r := by
          simp [batchGo, hh]
        have hR : drain (LineRes.ok line :: rest) a r = drain rest a r := by
          simp [drain, hh]
        rw [hL, hR]
        exact ih a r hrest hseq
      | some c =>
        by_cases hc1 : c = ';'
        · have hL : batchGo (LineRes.ok line :: rest) a r = batchGo rest a r := by
            simp [batchGo, hh, hc1]
          have hR : drain (LineRes.ok line :: rest) a r = drain rest a r := by
            simp [drain, hh, hc1]
          rw [hL, hR]
          exact ih a r hrest hseq
        · by_cases hc2 : c = '>'
          · subst hc2
            cases a with
            | false =>
              have hL : batchGo (LineRes.ok line :: rest) false r =
                  batchGo rest true (Record.setHeader Record.new line) := by
                simp [batchGo, hh, hc1]
              have hR : drain (LineRes.ok line :: rest) false r =
                  drain rest true (Record.setHeader r (trim line)) := by
                simp [drain, hh, hc1]
              rw [hL, hR, htf, setHeader_eq_new (hseq rfl) line]
              exact ih true _ hrest (by simp)
            | true =>
              have hL : batchGo (LineRes.ok line :: rest) true r =
                  r :: batchGo rest true (Record.setHeader Record.new line) := by
                simp [batchGo, hh, hc1]
              have hR : drain (LineRes.ok line :: rest) true r =
                  r :: drain rest true (Record.setHeader Record.new (trim line)) := by
                simp [drain, hh, hc1]
              rw [hL, hR, htf]
              exact congrArg (r :: ·) (ih true _ hrest (by simp))
          · cases a with
            | false =>
              have hL : batchGo (LineRes.ok line :: rest) false r =
                  batchGo rest false r := by
                simp [batchGo, hh, hc1, hc2]
              have hR : drain (LineRes.ok line :: rest) false r =
                  drain rest false r := by
                simp [drain, hh, hc1, hc2]
              rw [hL, hR]
              exact ih false r hrest hseq
            | true =>
              have hL : batchGo (LineRes.ok line :: rest) true r =
                  batchGo rest true { r with sequence := r.sequence ++ line } := by
                simp [batchGo, hh, hc1, hc2]
              have hR : drain (LineRes.ok line :: rest) true r =
                  drain rest true { r with sequence := r.sequence ++ trim line } := by
                simp [drain, hh, hc1, hc2]
              rw [hL, hR, htf]
              exact ih true _ hrest (by simp)

/-! ## Comment and blank lines are inert -/

theorem skippableLine_iff {l : List Char} :
    skippableLine l = true ↔ (trim l).head? = none ∨ (trim l).head? = some ';' := by
  simp [skippableLine]

theorem drain_skip_step {line : List Char} (h : skippableLine line = true)
    (rest : List LineRes) (a : Bool) (r : Record) :
    drain (LineRes.ok line :: rest) a r = drain rest a r := by
  rcases skippableLine_iff.mp h with hh | hh <;> simp [drain, hh]

theorem batchGo_skip_step {line : List Char} (h : skippableLine line = true)
    (rest : List LineRes) (a : Bool) (r : Record) :
    batchGo (LineRes.ok line :: rest) a r = batchGo rest a r := by
  rcases skippableLine_iff.mp h with hh | hh <;> simp [batchGo, hh]

theorem drain_filter : ∀ (ls : List LineRes) (a : Bool) (r : Record),
    drain (ls.filter notSkippable) a r = drain ls a r := by
  intro ls
  induction ls with
  | nil => intro a r; simp
  | cons x rest ih =>
    intro a r
    cases x with
    | err k =>
      have hk : notSkippable (LineRes.err k) = true := rfl
      rw [List.filter_cons_of_pos hk]
      simp [drain]
    | ok line =>
      by_cases hsk : skippableLine line = true
      · have hns : ¬ notSkippable (LineRes.ok line) = true := by
          simp [notSkippable, hsk]
        rw [List.filter_cons_of_neg hns, drain_skip_step hsk, ih a r]
      · have hns : notSkippable (LineRes.ok line) = true := by
          simp [notSkippable]
          simpa using hsk
        rw [List.filter_cons_of_pos hns]
        have hsk2 : ¬ ((trim line).head? = none ∨ (trim line).head? = some ';') := by
          rw [← skippableLine_iff]
          simpa using hsk
        push_neg at hsk2
        obtain ⟨hn, hc⟩ := hsk2
        cases hh : (trim line).head? with
        | none => exact absurd hh hn
        | some c =>
          have hc1 : ¬ c = ';' := by
            intro hcc
            exact hc (by rw [hh, hcc])
          by_cases hc2 : c = '>'
          · subst hc2
            cases a with
            | false =>
              have hL : drain (LineRes.ok line :: rest.filter notSkippable) false r =
                  drain (rest.filter notSkippable) true (Record.setHeader r (trim line)) := by
                simp [drain, hh, hc1]
              have hR : drain (LineRes.ok line :: rest) false r =
                  drain rest true (Record.setHeader r (trim line)) := by
                simp [drain, hh, hc1]
              rw [hL, hR]
              exact ih true _
            | true =>
              have hL : drain (LineRes.ok line :: rest.filter notSkippable) true r =
                  r :: drain (rest.filter notSkippable) true
                    (Record.setHeader Record.new (trim line)) := by
                simp [drain, hh, hc1]
              have hR : drain (LineRes.ok line :: rest) true r =
                  r :: drain rest true (Record.setHeader Record.new (trim line)) := by
                simp [drain, hh, hc1]
              rw [hL, hR]
              exact congrArg (r :: ·) (ih true _)
          · cases a with
            | false =>
              have hL : drain (LineRes.ok line :: rest.filter notSkippable) false r =
                  drain (rest.filter notSkippable) false r := by
                simp [drain, hh, hc1, hc2]
              have hR : drain (LineRes.ok line :: rest) false r =
                  drain rest false r := by
                simp [drain, hh, hc1, hc2]
              rw [hL, hR]
              exact ih false r
            | true =>
              have hL : drain (LineRes.ok line :: rest.filter notSkippable) true r =
                  drain (rest.filter notSkippable) true
                    { r with sequence := r.sequence ++ trim line } := by
                simp [drain, hh, hc1, hc2]
              have hR : drain (LineRes.ok line :: rest) true r =
                  drain rest true { r with sequence := r.sequence ++ trim line } := by
                simp [drain, hh, hc1, hc2]
              rw [hL, hR]
              exact ih true _

theorem batchGo_filter : ∀ (ls : List LineRes) (a : Bool) (r : Record),
    batchGo (ls.filter notSkippable) a r = batchGo ls a r := by
  intro ls
  induction ls with
  | nil => intro a r; simp
  | cons x rest ih =>
    intro a r
    cases x with
    | err k =>
      have hk : notSkippable (LineRes.err k) = true := rfl
      rw [List.filter_cons_of_pos hk]
      simp only [batchGo]
      exact ih a r
    | ok line =>
      by_cases hsk : skippableLine line = true
      · have hns : ¬ notSkippable (LineRes.ok line) = true := by
          simp [notSkippable, hsk]
        rw [List.filter_cons_of_neg hns, batchGo_skip_step hsk, ih a r]
      · have hns : notSkippable (LineRes.ok line) = true := by
          simp [notSkippable]
          simpa using hsk
        rw [List.filter_cons_of_pos hns]
        have hsk2 : ¬ ((trim line).head? = none ∨ (trim line).head? = some ';') := by
          rw [← skippableLine_iff]
          simpa using hsk
        push_neg at hsk2
        obtain ⟨hn, hc⟩ := hsk2
        cases hh : (trim line).head? with
        | none => exact absurd hh hn
        | some c =>
          have hc1 : ¬ c = ';' := by
            intro hcc
            exact hc (by rw [hh, hcc])
          by_cases hc2 : c = '>'
          · subst hc2
            cases a with
            | false =>
              have hL : batchGo (LineRes.ok line :: rest.filter notSkippable) false r =
                  batchGo (rest.filter notSkippable) true
                    (Record.setHeader Record.new line) := by
                simp [batchGo, hh, hc1]
              have hR : batchGo (LineRes.ok line :: rest) false r =
                  batchGo rest true (Record.setHeader Record.new line) := by
                simp [batchGo, hh, hc1]
              rw [hL, hR]
              exact ih true _
            | true =>
              have hL : batchGo (LineRes.ok line :: rest.filter notSkippable) true r =
                  r :: batchGo (rest.filter notSkippable) true
                    (Record.setHeader Record.new line) := by
                simp [batchGo, hh, hc1]
              have hR : batchGo (LineRes.ok line :: rest) true r =
                  r :: batchGo rest true (Record.setHeader Record.new line) := by
                simp [batchGo, hh, hc1]
              rw [hL, hR]
              exact congrArg (r :: ·) (ih true _)
          · cases a with
            | false =>
              have hL : batchGo (LineRes.ok line :: rest.filter notSkippable) false r =
                  batchGo (rest.filter notSkippable) false r := by
                simp [batchGo, hh, hc1, hc2]
              have hR : batchGo (LineRes.ok line :: rest) false r =
                  batchGo rest false r := by
                simp [batchGo, hh, hc1, hc2]
              rw [hL, hR]
              exact ih false r
            | true =>
              have hL : batchGo (LineRes.ok line :: rest.filter notSkippable) true r =
                  batchGo (rest.filter notSkippable) true
                    { r with sequence := r.sequence ++ line } := by
                simp [batchGo, hh, hc1, hc2]
              have hR : batchGo (LineRes.ok line :: rest) true r =
                  batchGo rest true { r with sequence := r.sequence ++ line } := by
                simp [batchGo, hh, hc1, hc2]
              rw [hL, hR]
              exact ih true _

/-! ## Data before any header is skipped while idle -/

theorem drain_idle_step {line : List Char} (h : (trim line).head? ≠ some '>')
    (rest : List LineRes) (r : Record) :
    drain (LineRes.ok line :: rest) false r = drain rest false r := by
  cases hh : (trim line).head? with
  | none => simp [drain, hh]
  | some c =>
    have hc2 : ¬ c = '>' := by
      intro hcc
      exact h (by rw [hh, hcc])
    by_cases hc1 : c = ';'
    · simp [drain, hh, hc1]
    · simp [drain, hh, hc1, hc2]

theorem batchGo_idle_step {line : List Char} (h : (trim line).head? ≠ some '>')
    (rest : List LineRes) (r : Record) :
    batchGo (LineRes.ok line :: rest) false r = batchGo rest false r := by
  cases hh : (trim line).head? with
  | none => simp [batchGo, hh]
  | some c =>
    have hc2 : ¬ c = '>' := by
      intro hcc
      exact h (by rw [hh, hcc])
    by_cases hc1 : c = ';'
    · simp [batchGo, hh, hc1]
    · simp [batchGo, hh, hc1, hc2]

theorem okNotHeader_ok {l : List Char} :
    okNotHeader (LineRes.ok l) = true ↔ (trim l).head? ≠ some '>' := by
  simp [okNotHeader]

theorem drain_idle_pre : ∀ (pre rest : List LineRes) (r : Record),
    (∀ x ∈ pre, okNotHeader x = true) →
    drain (pre ++ rest) false r = drain rest false r := by
  intro pre
  induction pre with
  | nil => intro rest r _; simp
  | cons x pre ih =>
    intro rest r hok
    cases x with
    | err k =>
      have := hok (LineRes.err k) (by simp)
      simp [okNotHeader] at this
    | ok line =>
      have h1 : (trim line).head? ≠ some '>' :=
        okNotHeader_ok.mp (hok (LineRes.ok line) (by simp))
      rw [List.cons_append, drain_idle_step h1, ih rest r (fun x hx => hok x (by simp [hx]))]

theorem batchGo_idle_pre : ∀ (pre rest : List LineRes) (r : Record),
    (∀ x ∈ pre, okNotHeader x = true) →
    batchGo (pre ++ rest) false r = batchGo rest false r := by
  intro pre
  induction pre with
  | nil => intro rest r _; simp
  | cons x pre ih =>
    intro rest r hok
    cases x with
    | err k =>
      have := hok (LineRes.err k) (by simp)
      simp [okNotHeader] at this
    | ok line =>
      have h1 : (trim line).head? ≠ some '>' :=
        okNotHeader_ok.mp (hok (LineRes.ok line) (by simp))
      rw [List.cons_append, batchGo_idle_step h1,
        ih rest r (fun x hx => hok x (by simp [hx]))]

/-! ## Shape of emitted sequence fields -/

theorem okNoNL_ok {l : List Char} :
    okNoNL (LineRes.ok l) = true ↔ '\n' ∉ l := by
  simp [okNoNL]

theorem drain_sequence_inv : ∀ (ls : List LineRes) (a : Bool) (r : Record),
    (∀ x ∈ ls, okNoNL x = true) →
    trim r.sequence = r.sequence → '\n' ∉ r.sequence →
    ∀ rec ∈ drain ls a r,
      trim rec.sequence = rec.sequence ∧ '\n' ∉ rec.sequence := by
  intro ls
  induction ls with
  | nil =>
    intro a r _ h1 h2 rec hrec
    cases a with
    | false => simp [drain] at hrec
    | true =>
      simp [drain] at hrec
      subst hrec
      exact ⟨h1, h2⟩
  | cons x rest ih =>
    intro a r hok h1 h2 rec hrec
    cases x with
    | err k => simp [drain] at hrec
    | ok line =>
      have hrest : ∀ x ∈ rest, okNoNL x = true := fun x hx => hok x (by simp [hx])
      have hnl : '\n' ∉ line := okNoNL_ok.mp (hok (LineRes.ok line) (by simp))
      have hnlt : '\n' ∉ trim line := fun hmem => hnl (mem_trim hmem)
      cases hh : (trim line).head? with
      | none =>
        rw [show drain (LineRes.ok line :: rest) a r = drain rest a r from by
          simp [drain, hh]] at hrec
        exact ih a r hrest h1 h2 rec hrec
      | some c =>
        by_cases hc1 : c = ';'
        · rw [show drain (LineRes.ok line :: rest) a r = drain rest a r from by
            simp [drain, hh, hc1]] at hrec
          exact ih a r hrest h1 h2 rec hrec
        · by_cases hc2 : c = '>'
          · subst hc2
            cases a with
            | false =>
              rw [show drain (LineRes.ok line :: rest) false r =
                  drain rest true (Record.setHeader r (trim line)) from by
                simp [drain, hh, hc1]] at hrec
              exact ih true _ hrest (by rw [setHeader_sequence]; exact h1)
                (by rw [setHeader_sequence]; exact h2) rec hrec
            | true =>
              rw [show drain (LineRes.ok line :: rest) true r =
                  r :: drain rest true (Record.setHeader Record.new (trim line)) from by
                simp [drain, hh, hc1]] at hrec
              rcases List.mem_cons.mp hrec with hcase | hcase
              · subst hcase; exact ⟨h1, h2⟩
              · exact ih true _ hrest (by rw [setHeader_sequence]; rfl)
                  (by rw [setHeader_sequence]; simp [Record.new]) rec hcase
          · cases a with
            | false =>
              rw [show drain (LineRes.ok line :: rest) false r =
                  drain rest false r from by simp [drain, hh, hc1, hc2]] at hrec
              exact ih false r hrest h1 h2 rec hrec
            | true =>
              rw [show drain (LineRes.ok line :: rest) true r =
                  drain rest true { r with sequence := r.sequence ++ trim line } from by
                simp [drain, hh, hc1, hc2]] at hrec
              refine ih true _ hrest ?_ ?_ rec hrec
              · exact trim_append_fix h1 (trim_idem line)
              · simp only [List.mem_append]
                rintro (hra | hra)
                · exact h2 hra
                · exact hnlt hra

theorem batchGo_no_newline : ∀ (ls : List LineRes) (a : Bool) (r : Record),
    (∀ x ∈ ls, okNoNL x = true) → '\n' ∉ r.sequence →
    ∀ rec ∈ batchGo ls a r, '\n' ∉ rec.sequence := by
  intro ls
  induction ls with
  | nil =>
    intro a r _ h2 rec hrec
    cases a with
    | false => simp [batchGo] at hrec
    | true =>
      simp [batchGo] at hrec
      subst hrec
      exact h2
  | cons x rest ih =>
    intro a r hok h2 rec hrec
    cases x with
    | err k =>
      rw [show batchGo (LineRes.err k :: rest) a r = batchGo rest a r from by
        simp [batchGo]] at hrec
      exact ih a r (fun x hx => hok x (by simp [hx])) h2 rec hrec
    | ok line =>
      have hrest : ∀ x ∈ rest, okNoNL x = true := fun x hx => hok x (by simp [hx])
      have hnl : '\n' ∉ line := okNoNL_ok.mp (hok (LineRes.ok line) (by simp))
      cases hh : (trim line).head? with
      | none =>
        rw [show batchGo (LineRes.ok line :: rest) a r = batchGo rest a r from by
          simp [batchGo, hh]] at hrec
        exact ih a r hrest h2 rec hrec
      | some c =>
        by_cases hc1 : c = ';'
        · rw [show batchGo (LineRes.ok line :: rest) a r = batchGo rest a r from by
            simp [batchGo, hh, hc1]] at hrec
          exact ih a r hrest h2 rec hrec
        · by_cases hc2 : c = '>'
          · subst hc2
            cases a with
            | false =>
              rw [show batchGo (LineRes.ok line :: rest) false r =
                  batchGo rest true (Record.setHeader Record.new line) from by
                simp [batchGo, hh, hc1]] at hrec
              exact ih true _ hrest (by rw [setHeader_sequence]; simp [Record.new])
                rec hrec
            | true =>
              rw [show batchGo (LineRes.ok line :: rest) true r =
                  r :: batchGo rest true (Record.setHeader Record.new line) from by
                simp [batchGo, hh, hc1]] at hrec
              rcases List.mem_cons.mp hrec with hcase | hcase
              · subst hcase; exact h2
              · exact ih true _ hrest (by rw [setHeader_sequence]; simp [Record.new])
                  rec hcase
          · cases a with
            | false =>
              rw [show batchGo (LineRes.ok line :: rest) false r =
                  batchGo rest false r from by simp [batchGo, hh, hc1, hc2]] at hrec
              exact ih false r hrest h2 rec hrec
            | true =>
              rw [show batchGo (LineRes.ok line :: rest) true r =
                  batchGo rest true { r with sequence := r.sequence ++ line } from by
                simp [batchGo, hh, hc1, hc2]] at hrec
              refine ih true _ hrest ?_ rec hrec
              simp only [List.mem_append]
              rintro (hra | hra)
              · exact h2 hra
              · exact hnl hra

/-! ## Error behaviour of the streaming parser -/

theorem scanState_bufNext : ∀ (pre : List LineRes) (a : Bool) (r : Record)
    (st : Bool × Record), scanState pre a r = some st →
    ∀ tl : List LineRes, bufNext (pre ++ tl) a r = bufNext tl st.1 st.2 := by
  intro pre
  induction pre with
  | nil =>
    intro a r st h tl
    simp [scanState] at h
    rw [← h]
    simp
  | cons x pre ih =>
    intro a r st h tl
    cases x with
    | err k => simp [scanState] at h
    | ok line =>
      cases hh : (trim line).head? with
      | none =>
        rw [show scanState (LineRes.ok line :: pre) a r = scanState pre a r from by
          simp [scanState, hh]] at h
        rw [List.cons_append,
          show bufNext (LineRes.ok line :: (pre ++ tl)) a r =
            bufNext (pre ++ tl) a r from by simp [bufNext, hh]]
        exact ih a r st h tl
      | some c =>
        by_cases hc1 : c = ';'
        · rw [show scanState (LineRes.ok line :: pre) a r = scanState pre a r from by
            simp [scanState, hh, hc1]] at h
          rw [List.cons_append,
            show bufNext (LineRes.ok line :: (pre ++ tl)) a r =
              bufNext (pre ++ tl) a r from by simp [bufNext, hh, hc1]]
          exact ih a r st h tl
        · by_cases hc2 : c = '>'
          · subst hc2
            cases a with
            | true =>
              rw [show scanState (LineRes.ok line :: pre) true r = none from by
                simp [scanState, hh, hc1]] at h
              simp at h
            | false =>
              rw [show scanState (LineRes.ok line :: pre) false r =
                  scanState pre true (Record.setHeader r (trim line)) from by
                simp [scanState, hh, hc1]] at h
              rw [List.cons_append,
                show bufNext (LineRes.ok line :: (pre ++ tl)) false r =
                  bufNext (pre ++ tl) true (Record.setHeader r (trim line)) from by
                simp [bufNext, hh, hc1]]
              exact ih true _ st h tl
          · cases a with
            | false =>
              rw [show scanState (LineRes.ok line :: pre) false r =
                  scanState pre false r from by simp [scanState, hh, hc1, hc2]] at h
              rw [List.cons_append,
                show bufNext (LineRes.ok line :: (pre ++ tl)) false r =
                  bufNext (pre ++ tl) false r from by simp [bufNext, hh, hc1, hc2]]
              exact ih false r st h tl
            | true =>
              rw [show scanState (LineRes.ok line :: pre) true r =
                  scanState pre true { r with sequence := r.sequence ++ trim line }
                from by simp [scanState, hh, hc1, hc2]] at h
              rw [List.cons_append,
                show bufNext (LineRes.ok line :: (pre ++ tl)) true r =
                  bufNext (pre ++ tl) true
                    { r with sequence := r.sequence ++ trim line } from by
                simp [bufNext, hh, hc1, hc2]]
              exact ih true _ st h tl

theorem bufNext_error_shape : ∀ (ls : List LineRes) (a : Bool) (r : Record)
    (k : Nat) (ls' : List LineRes),
    bufNext ls a r = (some (Except.error k), ls') →
    (∃ rest2, ls' = LineRes.err k :: rest2) ∧ ls' <:+ ls := by
  intro ls
  induction ls with
  | nil =>
    intro a r k ls' h
    cases a <;> simp [bufNext] at h
  | cons x rest ih =>
    intro a r k ls' h
    have step : ∀ (b : Bool) (q : Record),
        bufNext (x :: rest) a r = bufNext rest b q →
        (∃ rest2, ls' = LineRes.err k :: rest2) ∧ ls' <:+ x :: rest := by
      intro b q hq
      rw [hq] at h
      obtain ⟨hsh, hsuf⟩ := ih b q k ls' h
      exact ⟨hsh, hsuf.trans (List.suffix_cons x rest)⟩
    cases x with
    | err k' =>
      rw [show bufNext (LineRes.err k' :: rest) a r =
          (some (Except.error k'), LineRes.err k' :: rest) from rfl] at h
      have h1 : k' = k := by
        have := congrArg Prod.fst h
        simpa using this
      have h2 : ls' = LineRes.err k' :: rest := by
        have := congrArg Prod.snd h
        simpa using this.symm
      subst h1
      exact ⟨⟨rest, h2⟩, by rw [h2]⟩
    | ok line =>
      cases hh : (trim line).head? with
      | none => exact step a r (by simp [bufNext, hh])
      | some c =>
        by_cases hc1 : c = ';'
        · exact step a r (by simp [bufNext, hh, hc1])
        · by_cases hc2 : c = '>'
          · subst hc2
            cases a with
            | false =>
              exact step true (Record.setHeader r (trim line))
                (by simp [bufNext, hh, hc1])
            | true =>
              rw [show bufNext (LineRes.ok line :: rest) true r =
                  (some (Except.ok r), LineRes.ok line :: rest) from by
                simp [bufNext, hh, hc1]] at h
              have := congrArg Prod.fst h
              simp at this
          · cases a with
            | false => exact step false r (by simp [bufNext, hh, hc1, hc2])
            | true =>
              exact step true { r with sequence := r.sequence ++ trim line }
                (by simp [bufNext, hh, hc1, hc2])

theorem bufNext_err_head (k : Nat) (rest : List LineRes) (a : Bool) (r : Record) :
    bufNext (LineRes.err k :: rest) a r =
      (some (Except.error k), LineRes.err k :: rest) := rfl

theorem nthPull_err (k : Nat) (rest : List LineRes) :
    ∀ n : Nat, nthPull n (LineRes.err k :: rest) = some (Except.error k) := by
  intro n
  induction n with
  | zero => rfl
  | succ n ih =>
    show nthPull n (bufNext (LineRes.err k :: rest) false Record.new).2 =
      some (Except.error k)
    rw [bufNext_err_head]
    exact ih

/-! ## The header splitter -/

theorem splitFirstWs_eq : ∀ s : List Char,
    (splitFirstWs s).1 = s.takeWhile (fun c => !(isWs c)) ∧
    (splitFirstWs s).2.getD [] = (s.dropWhile (fun c => !(isWs c))).drop 1 := by
  intro s
  induction s with
  | nil => simp [splitFirstWs]
  | cons c rest ih =>
    by_cases hw : isWs c
    · have h1 : splitFirstWs (c :: rest) = ([], some rest) := by
        simp [splitFirstWs, hw]
      rw [h1]
      constructor
      · rw [List.takeWhile_cons_of_neg (by simp [hw])]
      · rw [List.dropWhile_cons_of_neg (by simp [hw])]
        simp
    · simp only [splitFirstWs, if_neg hw]
      constructor
      · rw [List.takeWhile_cons_of_pos (by simp [hw])]
        simpa using ih.1
      · rw [List.dropWhile_cons_of_pos (by simp [hw])]
        simpa using ih.2

theorem splitFirstWs_key : ∀ (i d : List Char), (∀ c ∈ i, isWs c = false) →
    splitFirstWs (i ++ ' ' :: d) = (i, some d) := by
  intro i
  induction i with
  | nil =>
    intro d _
    simp [splitFirstWs, show isWs ' ' = true from rfl]
  | cons c i ih =>
    intro d h
    have hc : isWs c = false := h c (by simp)
    have := ih d (fun x hx => h x (by simp [hx]))
    simp [splitFirstWs, hc, this]

theorem setHeaderChecked_eq (r : Record) : ∀ s : List Char,
    Record.setHeaderChecked r s = some (Record.setHeader r s) := by
  intro s
  cases s with
  | nil => rfl
  | cons c t =>
    by_cases hc : c = '>'
    · subst hc
      have h1 : (('>' :: t).head? = some '>') := rfl
      simp [Record.setHeaderChecked, Record.setHeader, byteTail,
        show ('>').utf8Size = 1 from rfl]
    · simp [Record.setHeaderChecked, Record.setHeader, hc]

/-! ## The renderer -/

theorem takeBytes_ascii : ∀ (s : List Char) (n : Nat), (∀ c ∈ s, c.utf8Size = 1) →
    (takeBytes n s).getD s = s.take n := by
  intro s
  induction s with
  | nil =>
    intro n _
    cases n <;> simp [takeBytes]
  | cons c t ih =>
    intro n h
    have hc : c.utf8Size = 1 := h c (by simp)
    cases n with
    | zero => simp [takeBytes]
    | succ n =>
      have ht : ∀ x ∈ t, x.utf8Size = 1 := fun x hx => h x (by simp [hx])
      rw [show takeBytes (n + 1) (c :: t) =
        (takeBytes n t).map (c :: ·) from by simp [takeBytes, hc]]
      cases htb : takeBytes n t with
      | none =>
        have := ih n ht
        rw [htb] at this
        simp only [Option.getD_none] at this
        simp [← this]
      | some x =>
        have := ih n ht
        rw [htb] at this
        simp only [Option.getD_some] at this
        simp [this]

theorem mem_takeBytes : ∀ (s : List Char) (n : Nat) (t : List Char),
    takeBytes n s = some t → ∀ c ∈ t, c ∈ s := by
  intro s
  induction s with
  | nil =>
    intro n t h c hc
    cases n with
    | zero => simp [takeBytes] at h; subst h; simp at hc
    | succ n => simp [takeBytes] at h
  | cons a s ih =>
    intro n t h c hc
    cases n with
    | zero =>
      simp [takeBytes] at h
      subst h
      simp at hc
    | succ n =>
      by_cases hsz : a.utf8Size ≤ n + 1
      · rw [show takeBytes (n + 1) (a :: s) =
          (takeBytes (n + 1 - a.utf8Size) s).map (a :: ·) from by
            simp [takeBytes, hsz]] at h
        cases htb : takeBytes (n + 1 - a.utf8Size) s with
        | none => rw [htb] at h; simp at h
        | some x =>
          rw [htb] at h
          simp at h
          subst h
          rcases List.mem_cons.mp hc with hc1 | hc1
          · simp [hc1]
          · exact List.mem_cons_of_mem a (ih _ x htb c hc1)
      · rw [show takeBytes (n + 1) (a :: s) = none from by
          simp [takeBytes, hsz]] at h
        simp at h

/-! ## Line splitting -/

theorem splitLinesGo_noNL : ∀ (B acc : List Char), (∀ b ∈ B, b ≠ '\n') →
    splitLinesGo B acc = [acc.reverse ++ B] := by
  intro B
  induction B with
  | nil => intro acc _; simp [splitLinesGo]
  | cons c rest ih =>
    intro acc h
    have hc : ¬ c = '\n' := h c (by simp)
    rw [show splitLinesGo (c :: rest) acc = splitLinesGo rest (c :: acc) from by
      simp [splitLinesGo, hc]]
    rw [ih (c :: acc) (fun x hx => h x (by simp [hx]))]
    simp

theorem splitLines_noNL {B : List Char} (hB : ∀ b ∈ B, b ≠ '\n') (hne : B ≠ []) :
    splitLines B = [B] := by
  cases B with
  | nil => exact absurd rfl hne
  | cons c rest =>
    rw [show splitLines (c :: rest) = splitLinesGo (c :: rest) [] from rfl]
    rw [splitLinesGo_noNL _ _ hB]
    simp

theorem splitLinesGo_header : ∀ (A acc B : List Char), (∀ a ∈ A, a ≠ '\n') →
    B ≠ [] →
    splitLinesGo (A ++ '\n' :: B) acc =
      stripCR (acc.reverse ++ A) :: splitLinesGo B [] := by
  intro A
  induction A with
  | nil =>
    intro acc B _ hne
    cases B with
    | nil => exact absurd rfl hne
    | cons b rest => simp [splitLinesGo]
  | cons a A ih =>
    intro acc B h hne
    have ha : ¬ a = '\n' := h a (by simp)
    rw [List.cons_append,
      show splitLinesGo (a :: (A ++ '\n' :: B)) acc =
        splitLinesGo (A ++ '\n' :: B) (a :: acc) from by simp [splitLinesGo, ha]]
    rw [ih (a :: acc) B (fun x hx => h x (by simp [hx])) hne]
    simp

theorem splitLines_header {A B : List Char} (hA : ∀ a ∈ A, a ≠ '\n')
    (hB : ∀ b ∈ B, b ≠ '\n') (hne : B ≠ []) :
    splitLines (A ++ '\n' :: B) = [stripCR A, B] := by
  have h0 : splitLines (A ++ '\n' :: B) = splitLinesGo (A ++ '\n' :: B) [] := by
    cases A <;> rfl
  rw [h0, splitLinesGo_header A [] B hA hne, splitLinesGo_noNL B [] hB]
  simp

theorem stripCR_eq {A : List Char} (h : A.getLast? ≠ some '\r') : stripCR A = A := by
  simp [stripCR, h]

/-! ## Claims -/

/-- C1, counterexample: the input `">a"`, `" C"` is well formed for the
spec's bit-exact grammar (the second line is non-empty and starts with
neither marker), yet `Fasta::parse` keeps the raw line `" C"` as the
sequence while the streaming parser keeps the trimmed `"C"`, so the two
parsers disagree. -/
theorem c1_wellformed_divergence :
    grammarWF [chars ">a", chars " C"] = true ∧
    batchRecords ([chars ">a", chars " C"].map LineRes.ok) ≠
      streamAll ([chars ">a", chars " C"].map LineRes.ok) := by
  constructor
  · decide
  · decide

/-- C1, amended: on every line source whose successfully read lines carry no
leading or trailing whitespace (so trimming is the identity on them) and
which contains no read errors, the batch parser `Fasta::parse` and repeated
pulls on `FastaBuffer` produce identical ordered sequences of records. -/
theorem c1_parsers_agree_trimmed (ls : List LineRes)
    (h : ∀ x ∈ ls, okTrimmed x = true) :
    batchRecords ls = streamAll ls := by
  rw [streamAll_eq_drain, batchRecords]
  exact batchGo_eq_drain ls false Record.new h (fun _ => rfl)

/-- C1, witness: a concrete trimmed input on which the two parsers agree. -/
theorem c1_parsers_agree_trimmed_witness :
    (∀ x ∈ [LineRes.ok (chars ">a d"), LineRes.ok (chars "ACGT"),
        LineRes.ok (chars ">b"), LineRes.ok (chars "TT")], okTrimmed x = true) ∧
    batchRecords [LineRes.ok (chars ">a d"), LineRes.ok (chars "ACGT"),
        LineRes.ok (chars ">b"), LineRes.ok (chars "TT")] =
      streamAll [LineRes.ok (chars ">a d"), LineRes.ok (chars "ACGT"),
        LineRes.ok (chars ">b"), LineRes.ok (chars "TT")] :=
  ⟨by decide, c1_parsers_agree_trimmed _ (by decide)⟩

/-- C3, counterexample: the claimed 80-column wrapped rendering differs from
what `impl Display for Record` actually produces — for the record
`(id "a", description "", sequence "B")` the code renders `">a \nB..."`
(a 40-byte preview followed by a literal ellipsis, no trailing newline),
not the wrapped form `">a \nB\n"`. -/
theorem c3_wrap_counterexample :
    Record.render { id := ['a'], description := [], sequence := ['B'] } ≠
      Record.renderSpec { id := ['a'], description := [], sequence := ['B'] } := by
  decide

/-- C3, amended: rendering produces `>{id} {description}` and a newline,
followed not by the wrapped sequence but by a preview — the first 40 bytes
of the sequence (the whole sequence when shorter; stated here for sequences
of 1-byte characters, where 40 bytes are 40 characters) — followed by a
literal `...` with no trailing newline. -/
theorem c3_render_preview (r : Record) (h : ∀ c ∈ r.sequence, c.utf8Size = 1) :
    Record.render r = '>' :: (r.id ++ ' ' :: (r.description ++ '\n' ::
      (r.sequence.take 40 ++ chars "..."))) := by
  simp only [Record.render, takeBytes_ascii r.sequence 40 h]

/-- C3, witness: the amended rendering at a concrete record. -/
theorem c3_render_preview_witness :
    (∀ c ∈ (chars "ACGT"), c.utf8Size = 1) ∧
    Record.render ⟨chars "id", chars "d", chars "ACGT"⟩ =
      '>' :: (chars "id" ++ ' ' :: (chars "d" ++ '\n' ::
        ((chars "ACGT").take 40 ++ chars "..."))) :=
  ⟨by decide, c3_render_preview _ (by decide)⟩

/-- C4, counterexample: on the newline-free input `">a"`, `" C"` the batch
parser emits a record whose sequence is the raw `" C"`, which cannot be
written as a concatenation of whitespace-trimmed newline-free line
contributions (any such concatenation is itself trimmed). -/
theorem c4_batch_counterexample :
    (∀ x ∈ [LineRes.ok (chars ">a"), LineRes.ok (chars " C")],
      okNoNL x = true) ∧
    batchRecords [LineRes.ok (chars ">a"), LineRes.ok (chars " C")] =
      [{ id := ['a'], description := [], sequence := [' ', 'C'] }] ∧
    ¬ SeqPieces { id := ['a'], description := [], sequence := [' ', 'C'] } := by
  refine ⟨by decide, by decide, ?_⟩
  rintro ⟨ps, hj, hp⟩
  have h := (flatten_trim_fix ps hp).1
  rw [← hj] at h
  exact absurd h (by decide)

/-- C4, amended: on newline-free error-free input, every record produced by
the streaming parser has a sequence that is a concatenation of trimmed,
newline-free contributions; the batch parser only guarantees the absence of
newlines (it appends raw line content, whitespace included). -/
theorem c4_sequence_shape (ls : List LineRes) (h : ∀ x ∈ ls, okNoNL x = true) :
    (∀ rec ∈ streamAll ls, SeqPieces rec) ∧
    (∀ rec ∈ batchRecords ls, '\n' ∉ rec.sequence) := by
  constructor
  · intro rec hrec
    rw [streamAll_eq_drain] at hrec
    have hinv := drain_sequence_inv ls false Record.new h rfl (by simp [Record.new])
      rec hrec
    refine ⟨[rec.sequence], by simp, ?_⟩
    intro p hp
    simp at hp
    subst hp
    exact hinv
  · intro rec hrec
    exact batchGo_no_newline ls false Record.new h (by simp [Record.new]) rec hrec

/-- C4, witness: the amended shape at a concrete input. -/
theorem c4_sequence_shape_witness :
    (∀ x ∈ [LineRes.ok (chars ">x"), LineRes.ok (chars "ACGT")],
      okNoNL x = true) ∧
    ((∀ rec ∈ streamAll [LineRes.ok (chars ">x"), LineRes.ok (chars "ACGT")],
        SeqPieces rec) ∧
     (∀ rec ∈ batchRecords [LineRes.ok (chars ">x"), LineRes.ok (chars "ACGT")],
        '\n' ∉ rec.sequence)) :=
  ⟨by decide, c4_sequence_shape _ (by decide)⟩

/-- C5, counterexample: on the header `">a  b"` (two spaces) the code's
splitter keeps the second space in the description (`" b"`), while splitting
on the first whitespace *run*, as the claim states, would give `"b"`. -/
theorem c5_run_counterexample :
    ((Record.setHeader Record.new (chars ">a  b")).id,
     (Record.setHeader Record.new (chars ">a  b")).description) ≠
      headerSplitSpec (chars ">a  b") := by
  decide

/-- C5, amended: the header splitter strips the marker if present and splits
at the first whitespace *character*: `id` is the maximal whitespace-free
prefix of the remainder and `description` is everything after that single
character (later characters of a whitespace run stay in the description);
with no whitespace the whole remainder is the id and the description is
empty, as in the claim's examples. -/
theorem c5_header_split_char (r : Record) (s : List Char) :
    (Record.setHeader r s).id =
      (if s.head? = some '>' then s.tail else s).takeWhile (fun c => !(isWs c)) ∧
    (Record.setHeader r s).description =
      ((if s.head? = some '>' then s.tail else s).dropWhile
        (fun c => !(isWs c))).drop 1 ∧
    Record.setHeader Record.new (chars ">seq1") =
      { id := chars "seq1", description := [], sequence := [] } ∧
    Record.setHeader Record.new (chars ">seq1 description text") =
      { id := chars "seq1", description := chars "description text",
        sequence := [] } := by
  refine ⟨?_, ?_, by decide, by decide⟩
  · simp only [Record.setHeader]
    exact (splitFirstWs_eq _).1
  · simp only [Record.setHeader]
    exact (splitFirstWs_eq _).2

/-- C6: the header splitter `Record::set_header` is total — its only fallible
step, the byte slice `s[1..]`, is guarded by `starts_with('>')` and therefore
never panics (`setHeaderChecked` always returns `some`), and on the empty
string and on the bare marker `">"` both fields come out empty. -/
theorem c6_header_splitter_total (r : Record) (s : List Char) :
    Record.setHeaderChecked r s = some (Record.setHeader r s) ∧
    Record.setHeader r [] =
      { id := [], description := [], sequence := r.sequence } ∧
    Record.setHeader r ['>'] =
      { id := [], description := [], sequence := r.sequence } := by
  exact ⟨setHeaderChecked_eq r s, rfl, rfl⟩

/-- C2, counterexample: rendering the record `(id "a", description "",
sequence "B")` and re-parsing the text does not reproduce the record — the
parsed sequence is the preview `"B..."`, ellipsis included. -/
theorem c2_roundtrip_counterexample :
    batchRecords ((splitLines (Record.render ⟨['a'], [], ['B']⟩)).map LineRes.ok) ≠
      [⟨['a'], [], ['B']⟩] := by
  decide

/-- C2, amended: for a record whose id contains no whitespace, whose
description contains no newline and does not end in a carriage return, and
whose sequence contains no newline and yields a preview line that is neither
a comment nor a header, re-parsing the rendered text yields exactly one
record with the same id and description — but its sequence is the rendered
preview (first 40 bytes, or the whole sequence when shorter) followed by the
literal `...`, not the original sequence. -/
theorem c2_roundtrip_amended (r : Record)
    (hid : ∀ c ∈ r.id, isWs c = false)
    (hd1 : '\n' ∉ r.description)
    (hd2 : r.description.getLast? ≠ some '\r')
    (hs : '\n' ∉ r.sequence)
    (hsc1 : (trim ((takeBytes 40 r.sequence).getD r.sequence ++
      chars "...")).head? ≠ some ';')
    (hsc2 : (trim ((takeBytes 40 r.sequence).getD r.sequence ++
      chars "...")).head? ≠ some '>') :
    batchRecords ((splitLines (Record.render r)).map LineRes.ok) =
      [⟨r.id, r.description,
        (takeBytes 40 r.sequence).getD r.sequence ++ chars "..."⟩] := by
  have hpvsub : ∀ c ∈ (takeBytes 40 r.sequence).getD r.sequence,
      c ∈ r.sequence := by
    cases htb : takeBytes 40 r.sequence with
    | none => simp
    | some t =>
      intro c hc
      simp at hc
      exact mem_takeBytes r.sequence 40 t htb c hc
  have hrender : Record.render r =
      ('>' :: (r.id ++ ' ' :: r.description)) ++ '\n' ::
        ((takeBytes 40 r.sequence).getD r.sequence ++ chars "...") := by
    simp [Record.render]
  have hA : ∀ a ∈ '>' :: (r.id ++ ' ' :: r.description), a ≠ '\n' := by
    intro a ha hcon
    subst hcon
    rcases List.mem_cons.mp ha with h1 | h1
    · exact absurd h1 (by decide)
    rcases List.mem_append.mp h1 with h2 | h2
    · exact absurd (hid _ h2) (by decide)
    rcases List.mem_cons.mp h2 with h3 | h3
    · exact absurd h3 (by decide)
    · exact hd1 h3
  have hB : ∀ b ∈ (takeBytes 40 r.sequence).getD r.sequence ++ chars "...",
      b ≠ '\n' := by
    intro b hb hcon
    subst hcon
    rcases List.mem_append.mp hb with h1 | h1
    · exact hs (hpvsub _ h1)
    · exact absurd h1 (by decide)
  have hBne : (takeBytes 40 r.sequence).getD r.sequence ++ chars "..." ≠ [] := by
    intro h
    exact absurd (List.append_eq_nil.mp h).2 (by decide)
  have hsplit := splitLines_header hA hB hBne
  have hlast : ('>' :: (r.id ++ ' ' :: r.description)).getLast? ≠ some '\r' := by
    have h1 : ('>' :: (r.id ++ ' ' :: r.description)) =
        ('>' :: r.id) ++ (' ' :: r.description) := by simp
    rw [h1, List.getLast?_append_of_ne_nil _ (by simp)]
    cases hdesc : r.description with
    | nil => decide
    | cons d ds =>
      rw [hdesc] at hd2
      have h2 : (' ' :: d :: ds) = [' '] ++ (d :: ds) := rfl
      rw [h2, List.getLast?_append_of_ne_nil _ (by simp)]
      exact hd2
  rw [stripCR_eq hlast] at hsplit
  rw [hrender, hsplit]
  have hheadA : (trim ('>' :: (r.id ++ ' ' :: r.description))).head? = some '>' :=
    trim_head?_cons (by decide) _
  have hset : Record.setHeader Record.new ('>' :: (r.id ++ ' ' :: r.description)) =
      ⟨r.id, r.description, []⟩ := by
    have hkey := splitFirstWs_key r.id r.description hid
    simp [Record.setHeader, Record.new, hkey]
  cases hh2 : (trim ((takeBytes 40 r.sequence).getD r.sequence ++
      chars "...")).head? with
  | none =>
    exfalso
    have hdot : ('.' : Char) ∈ (takeBytes 40 r.sequence).getD r.sequence ++
        chars "..." := List.mem_append.mpr (Or.inr (by decide))
    have hne : trim ((takeBytes 40 r.sequence).getD r.sequence ++ chars "...") ≠ [] :=
      trim_ne_nil_of_mem (show isWs '.' = false by decide) hdot
    exact hne (List.head?_eq_none_iff.mp hh2)
  | some c0 =>
    have hc0_1 : ¬ c0 = ';' := by
      intro hcc
      rw [hcc] at hh2
      exact hsc1 hh2
    have hc0_2 : ¬ c0 = '>' := by
      intro hcc
      rw [hcc] at hh2
      exact hsc2 hh2
    simp only [List.map_cons, List.map_nil]
    rw [show batchRecords
        [LineRes.ok ('>' :: (r.id ++ ' ' :: r.description)),
         LineRes.ok ((takeBytes 40 r.sequence).getD r.sequence ++ chars "...")] =
        batchGo [LineRes.ok ((takeBytes 40 r.sequence).getD r.sequence ++ chars "...")]
          true (Record.setHeader Record.new ('>' :: (r.id ++ ' ' :: r.description)))
      from by simp [batchRecords, batchGo, hheadA]]
    rw [hset]
    rw [show batchGo
        [LineRes.ok ((takeBytes 40 r.sequence).getD r.sequence ++ chars "...")]
        true (⟨r.id, r.description, []⟩ : Record) =
        batchGo [] true ⟨r.id, r.description,
          [] ++ ((takeBytes 40 r.sequence).getD r.sequence ++ chars "...")⟩
      from by simp [batchGo, hh2, hc0_1, hc0_2]]
    simp [batchGo]

/-- C2, witness: the amended round trip at a concrete record. -/
theorem c2_roundtrip_amended_witness :
    ((∀ c ∈ (chars "a"), isWs c = false) ∧
     '\n' ∉ (chars "d") ∧
     (chars "d").getLast? ≠ some '\r' ∧
     '\n' ∉ (chars "ACGT") ∧
     (trim ((takeBytes 40 (chars "ACGT")).getD (chars "ACGT") ++
       chars "...")).head? ≠ some ';' ∧
     (trim ((takeBytes 40 (chars "ACGT")).getD (chars "ACGT") ++
       chars "...")).head? ≠ some '>') ∧
    batchRecords ((splitLines (Record.render ⟨chars "a", chars "d",
        chars "ACGT"⟩)).map LineRes.ok) =
      [⟨chars "a", chars "d",
        (takeBytes 40 (chars "ACGT")).getD (chars "ACGT") ++ chars "..."⟩] :=
  ⟨⟨by decide, by decide, by decide, by decide, by decide, by decide⟩,
   c2_roundtrip_amended ⟨chars "a", chars "d", chars "ACGT"⟩
     (by decide) (by decide) (by decide) (by decide) (by decide) (by decide)⟩

/-- C7: whenever a pull on `FastaBuffer` reaches a line-read failure (after
consuming any lines the loop skipped or accumulated, expressed by
`scanState`), that call returns the failure — not a record and not the
end-of-input `none` — and the failing line is still at the head of the
remaining source, so a caller that stops loses nothing further. -/
theorem c7_read_failure_surfaced (pre : List LineRes) (a : Bool) (r : Record)
    (st : Bool × Record) (k : Nat) (rest : List LineRes)
    (h : scanState pre a r = some st) :
    bufNext (pre ++ LineRes.err k :: rest) a r =
      (some (Except.error k), LineRes.err k :: rest) := by
  rw [scanState_bufNext pre a r st h (LineRes.err k :: rest)]
  rfl

/-- C7, witness: a concrete pull that hits a read failure after a header and
a sequence line. -/
theorem c7_read_failure_surfaced_witness :
    scanState [LineRes.ok (chars ">a"), LineRes.ok (chars "AC")] false
        Record.new = some (true, ⟨chars "a", [], chars "AC"⟩) ∧
    bufNext ([LineRes.ok (chars ">a"), LineRes.ok (chars "AC")] ++
        LineRes.err 7 :: []) false Record.new =
      (some (Except.error 7), LineRes.err 7 :: []) :=
  ⟨by decide,
   c7_read_failure_surfaced _ false Record.new (true, ⟨chars "a", [], chars "AC"⟩)
     7 [] (by decide)⟩

/-- C8: a comment or blank line inserted anywhere in the source changes
neither parser's output — it contributes to no sequence and neither
terminates nor splits a record in the batch parser or the streaming one. -/
theorem c8_comment_blank_inert (pre post : List LineRes) (l : List Char)
    (h : skippableLine l = true) :
    batchRecords (pre ++ LineRes.ok l :: post) = batchRecords (pre ++ post) ∧
    streamAll (pre ++ LineRes.ok l :: post) = streamAll (pre ++ post) := by
  have hns : ¬ notSkippable (LineRes.ok l) = true := by simp [notSkippable, h]
  have hfilter : (pre ++ LineRes.ok l :: post).filter notSkippable =
      (pre ++ post).filter notSkippable := by
    rw [List.filter_append, List.filter_append, List.filter_cons_of_neg hns]
  constructor
  · rw [batchRecords, batchRecords,
      ← batchGo_filter (pre ++ LineRes.ok l :: post) false Record.new,
      ← batchGo_filter (pre ++ post) false Record.new, hfilter]
  · rw [streamAll_eq_drain, streamAll_eq_drain,
      ← drain_filter (pre ++ LineRes.ok l :: post) false Record.new,
      ← drain_filter (pre ++ post) false Record.new, hfilter]

/-- C8, witness: a comment line inserted inside a record is inert for both
parsers. -/
theorem c8_comment_blank_inert_witness :
    skippableLine (chars "; note") = true ∧
    batchRecords ([LineRes.ok (chars ">a")] ++
        LineRes.ok (chars "; note") :: [LineRes.ok (chars "AC")]) =
      batchRecords ([LineRes.ok (chars ">a")] ++ [LineRes.ok (chars "AC")]) ∧
    streamAll ([LineRes.ok (chars ">a")] ++
        LineRes.ok (chars "; note") :: [LineRes.ok (chars "AC")]) =
      streamAll ([LineRes.ok (chars ">a")] ++ [LineRes.ok (chars "AC")]) := by
  refine ⟨by decide, ?_⟩
  exact c8_comment_blank_inert [LineRes.ok (chars ">a")] [LineRes.ok (chars "AC")]
    (chars "; note") (by decide)

/-- C9: lines read before any header whose first non-whitespace character is
not the marker (sequence data, comments, blanks) are silently skipped by both
parsers with no failure: prefixing them changes nothing, and an input with no
header at all yields zero records — the batch parser still returns `Ok`. -/
theorem c9_headerless_skipped (pre rest : List LineRes)
    (h : ∀ x ∈ pre, okNotHeader x = true) :
    fastaParse (pre ++ rest) = fastaParse rest ∧
    streamAll (pre ++ rest) = streamAll rest ∧
    fastaParse pre = Except.ok [] ∧
    streamAll pre = [] := by
  have h1 : batchRecords (pre ++ rest) = batchRecords rest :=
    batchGo_idle_pre pre rest Record.new h
  have h2 : streamAll (pre ++ rest) = streamAll rest := by
    rw [streamAll_eq_drain, streamAll_eq_drain]
    exact drain_idle_pre pre rest Record.new h
  have h3 : batchRecords pre = [] := by
    have hx := batchGo_idle_pre pre [] Record.new h
    rw [List.append_nil] at hx
    simpa [batchRecords, batchGo] using hx
  have h4 : streamAll pre = [] := by
    rw [streamAll_eq_drain]
    have hx := drain_idle_pre pre [] Record.new h
    rw [List.append_nil] at hx
    simpa [drain] using hx
  exact ⟨by simp [fastaParse, h1], h2, by simp [fastaParse, h3], h4⟩

/-- C9, witness: sequence data, a comment and a blank line before the first
header are skipped; alone they produce zero records and no failure. -/
theorem c9_headerless_skipped_witness :
    (∀ x ∈ [LineRes.ok (chars "ACGT"), LineRes.ok (chars ";c"),
        LineRes.ok []], okNotHeader x = true) ∧
    (fastaParse ([LineRes.ok (chars "ACGT"), LineRes.ok (chars ";c"),
        LineRes.ok []] ++ [LineRes.ok (chars ">a")]) =
      fastaParse [LineRes.ok (chars ">a")] ∧
     streamAll ([LineRes.ok (chars "ACGT"), LineRes.ok (chars ";c"),
        LineRes.ok []] ++ [LineRes.ok (chars ">a")]) =
      streamAll [LineRes.ok (chars ">a")] ∧
     fastaParse [LineRes.ok (chars "ACGT"), LineRes.ok (chars ";c"),
        LineRes.ok []] = Except.ok [] ∧
     streamAll [LineRes.ok (chars "ACGT"), LineRes.ok (chars ";c"),
        LineRes.ok []] = []) :=
  ⟨by decide, c9_headerless_skipped _ _ (by decide)⟩

/-- C10: a pull that returns a read failure leaves the failing line at the
head of the peekable source (the error carries that line's kind and the
remaining source is a suffix of the original, starting with the failure),
and consequently every subsequent pull — the `n`-th for any `n` — returns
the same failure again, never a record and never end-of-input. -/
theorem c10_error_sticky :
    (∀ (ls : List LineRes) (a : Bool) (r : Record) (k : Nat)
      (ls' : List LineRes),
      bufNext ls a r = (some (Except.error k), ls') →
      (∃ rest2, ls' = LineRes.err k :: rest2) ∧ ls' <:+ ls) ∧
    (∀ (k : Nat) (rest : List LineRes) (n : Nat),
      nthPull n (LineRes.err k :: rest) = some (Except.error k)) :=
  ⟨bufNext_error_shape, fun k rest n => nthPull_err k rest n⟩

/-- C10, witness: the sticky failure at a concrete one-error source. -/
theorem c10_error_sticky_witness :
    ((∃ rest2, ([LineRes.err 3] : List LineRes) = LineRes.err 3 :: rest2) ∧
      ([LineRes.err 3] : List LineRes) <:+ [LineRes.err 3]) ∧
    nthPull 5 [LineRes.err 3] = some (Except.error 3) :=
  ⟨c10_error_sticky.1 [LineRes.err 3] false Record.new 3 [LineRes.err 3] rfl,
   c10_error_sticky.2 3 [] 5⟩

end FastaLib
